import Mathlib

/-!
Verification of the YTDB concurrent red-black tree (src/main.cpp).

The pointer-based tree of the source is embedded as an inductive tree together
with a zipper (a focused subtree plus the chain of its ancestors), so that the
iterative, parent-pointer-walking insertion fixup of the source can be rendered
step for step.  A `none` result models a null-pointer dereference.
-/

namespace YTDB

/-- Byte sequences (std::vector of uint8_t) are modelled as lists of naturals
holding the byte values. -/
abbrev Key := List Nat

abbrev Val := List Nat

/-- Three-way lexicographic comparison of byte sequences (src/main.cpp,
`compare_keys`, lines 23-40): the source walks the common prefix and returns at
the first differing byte, then compares lengths; the structural recursion below
performs the same comparisons in the same order. -/
def compare_keys : Key → Key → Int
  | a :: as, b :: bs =>
    if a < b then -1
    else if b < a then 1
    else compare_keys as bs
  | [], [] => 0
  | [], _ :: _ => -1
  | _ :: _, [] => 1

/-- A tree node (src/main.cpp, `struct Node`): colour flag `is_red`, left and
right children, key and value.  `nil` is the null pointer.  The parent pointer
of the source is represented by the zipper `Entry` list below. -/
inductive Tree where
  | nil : Tree
  | node (red : Bool) (left : Tree) (key : Key) (value : Val) (right : Tree) : Tree
deriving DecidableEq, Repr

/-- Which child slot of its parent a focused subtree occupies. -/
inductive Dir where
  | left : Dir
  | right : Dir
deriving DecidableEq, Repr

/-- One ancestor on the parent chain of a focused subtree: the side the focus
hangs on, the parent's colour, key, value, and the parent's other child. -/
structure Entry where
  dir : Dir
  red : Bool
  key : Key
  value : Val
  sibling : Tree
deriving DecidableEq, Repr

/-- Reattach a focused subtree to its parent node. -/
def attach (t : Tree) (e : Entry) : Tree :=
  match e.dir with
  | .left => .node e.red t e.key e.value e.sibling
  | .right => .node e.red e.sibling e.key e.value t

/-- Rebuild the whole tree from a focused subtree and its ancestor chain. -/
def plug : Tree → List Entry → Tree
  | t, [] => t
  | t, e :: p => plug (attach t e) p

/-- Left rotation (src/main.cpp, `rotate_left`, lines 61-77) acting on the
subtree rooted at the rotated node; colours travel with their nodes, exactly as
in the source, which never touches `is_red` here.  `none` models the null
dereference `right_child->left` when the right child is absent. -/
def rotate_left : Tree → Option Tree
  | .node c l k v (.node rc rl rk rv rr) => some (.node rc (.node c l k v rl) rk rv rr)
  | _ => none

/-- Right rotation (src/main.cpp, `rotate_right`, lines 79-95), mirror of
`rotate_left`. -/
def rotate_right : Tree → Option Tree
  | .node c (.node lc ll lk lv lr) k v r => some (.node lc ll lk lv (.node c lr k v r))
  | _ => none

/-- Lookup descent (src/main.cpp, `find_node`, lines 46-59): follow the
comparator from the given node; return the node's key and value on an EQUAL
comparison, `none` on reaching a null slot. -/
def find_node : Tree → Key → Option (Key × Val)
  | .nil, _ => none
  | .node _ l k v r, key =>
    let cmp := compare_keys key k
    if cmp = 0 then some (k, v)
    else if cmp < 0 then find_node l key
    else find_node r key

/-- Point lookup (src/main.cpp, `RedBlackTree::get`, lines 192-199).  The
caller's output buffer `out_value` is threaded through explicitly: the source
writes `out_value = node->value` only when the node was found and returns the
`found` flag. -/
def get (t : Tree) (key : Key) (out_value : Val) : Bool × Val :=
  match find_node t key with
  | some kv => (true, kv.2)
  | none => (false, out_value)

/-- The insertion fixup loop of src/main.cpp (`fix_insert`, lines 98-132) in
zipper form.  The focus `z` is the loop's `node`; the entry list is its parent
chain.  The loop runs while the parent exists and is RED; `none` models the
unguarded null dereference of `node->parent->parent` when the grandparent is
absent, or a rotation touching an absent child.  In the two rotation branches
the parent entry of the new focus has just been recoloured BLACK (line 111 resp.
line 127), so the loop condition fails on re-entry and the rebuilt tree is
returned directly. -/
def fixGo : Tree → List Entry → Option Tree
  | z, [] => some z
  | z, pe :: rest =>
    match pe.red with
    | false => some (plug (attach z pe) rest)
    | true =>
      match rest with
      | [] => none
      | ge :: p =>
        match ge.dir with
        | .left =>
          match ge.sibling with
          | .node true ul uk uv ur =>
            fixGo (.node true (attach z (Entry.mk pe.dir false pe.key pe.value pe.sibling))
              ge.key ge.value (.node false ul uk uv ur)) p
          | _ =>
            match pe.dir with
            | .right =>
              match rotate_left (attach z pe) with
              | some (.node _ zl zk zv zr) =>
                match rotate_right (attach (attach zl (Entry.mk .left false zk zv zr))
                    (Entry.mk .left true ge.key ge.value ge.sibling)) with
                | some t => some (plug t p)
                | none => none
              | _ => none
            | .left =>
              match rotate_right (attach (attach z (Entry.mk .left false pe.key pe.value pe.sibling))
                  (Entry.mk .left true ge.key ge.value ge.sibling)) with
              | some t => some (plug t p)
              | none => none
        | .right =>
          match ge.sibling with
          | .node true ul uk uv ur =>
            fixGo (.node true (.node false ul uk uv ur) ge.key ge.value
              (attach z (Entry.mk pe.dir false pe.key pe.value pe.sibling))) p
          | _ =>
            match pe.dir with
            | .left =>
              match rotate_right (attach z pe) with
              | some (.node _ zl zk zv zr) =>
                match rotate_left (attach (attach zr (Entry.mk .right false zk zv zl))
                    (Entry.mk .right true ge.key ge.value ge.sibling)) with
                | some t => some (plug t p)
                | none => none
              | _ => none
            | .right =>
              match rotate_left (attach (attach z (Entry.mk .right false pe.key pe.value pe.sibling))
                  (Entry.mk .right true ge.key ge.value ge.sibling)) with
              | some t => some (plug t p)
              | none => none

/-- Force the root BLACK (src/main.cpp line 133, `root->is_red = false`;  the
root is never null on this line since an insertion just happened). -/
def blacken : Tree → Tree
  | .nil => .nil
  | .node _ l k v r => .node false l k v r

/-- Insertion fixup (src/main.cpp, `fix_insert`, lines 97-134): run the loop,
then unconditionally force the root BLACK. -/
def fix_insert (z : Tree) (path : List Entry) : Option Tree :=
  (fixGo z path).map blacken

/-- The descent loop of `put` (src/main.cpp lines 159-175) in zipper form,
followed by the creation and linking of the new RED node (lines 177-187) and
the fixup call (line 189).  On reaching a null slot the source re-derives the
comparison with the parent's key (line 181) and links the new node on the side
that comparison selects, which is rendered literally here. -/
def putDescend (k : Key) (v : Val) : Tree → List Entry → Option Tree
  | .nil, path =>
    match path with
    | [] => fix_insert (.node true .nil k v .nil) []
    | pe :: rest =>
      if compare_keys k pe.key < 0 then
        fix_insert (.node true .nil k v .nil)
          (Entry.mk .left pe.red pe.key pe.value
            (match pe.dir with | .left => pe.sibling | .right => .nil) :: rest)
      else
        fix_insert (.node true .nil k v .nil)
          (Entry.mk .right pe.red pe.key pe.value
            (match pe.dir with | .right => pe.sibling | .left => .nil) :: rest)
  | .node c l nk nv r, path =>
    let cmp := compare_keys k nk
    if cmp = 0 then some (plug (.node c l nk v r) path)
    else if cmp < 0 then putDescend k v l (Entry.mk .left c nk nv r :: path)
    else putDescend k v r (Entry.mk .right c nk nv l :: path)

/-- Insert or overwrite (src/main.cpp, `RedBlackTree::put`, lines 152-190).  An
empty tree gets a fresh node forced BLACK (lines 153-157); otherwise the descent
runs from the root with an empty ancestor chain. -/
def put (t : Tree) (k : Key) (v : Val) : Option Tree :=
  match t with
  | .nil => some (.node false .nil k v .nil)
  | .node c l nk nv r => putDescend k v (.node c l nk nv r) []

/-- Run a sequence of `put` calls starting from a given tree. -/
def runPuts : Tree → List (Key × Val) → Option Tree
  | t, [] => some t
  | t, (k, v) :: ops => (put t k v).bind (fun t' => runPuts t' ops)

/-- In-order traversal of the stored entries. -/
def toList : Tree → List (Key × Val)
  | .nil => []
  | .node _ l k v r => toList l ++ (k, v) :: toList r

/-- In-order list of keys. -/
def treeKeys (t : Tree) : List Key := (toList t).map Prod.fst

/-- Number of nodes. -/
def size : Tree → Nat
  | .nil => 0
  | .node _ l _ _ r => size l + size r + 1

/-- Erase all stored values, keeping shape, colours and keys: two trees with
equal `stripVals` have identical structure up to the stored values. -/
def stripVals : Tree → Tree
  | .nil => .nil
  | .node c l k _ r => .node c (stripVals l) k [] (stripVals r)

/-- The fixup loop once more, now with an explicit iteration budget: one unit of
fuel is spent per executed loop iteration of src/main.cpp lines 98-132, and the
loop condition is re-examined after every iteration, including after the
terminating rotation branches.  Running out of fuel yields `none`. -/
def fixGoF : Nat → Tree → List Entry → Option Tree
  | 0, _, _ => none
  | fuel + 1, z, path =>
    match path with
    | [] => some z
    | pe :: rest =>
      match pe.red with
      | false => some (plug (attach z pe) rest)
      | true =>
        match rest with
        | [] => none
        | ge :: p =>
          match ge.dir with
          | .left =>
            match ge.sibling with
            | .node true ul uk uv ur =>
              fixGoF fuel (.node true (attach z (Entry.mk pe.dir false pe.key pe.value pe.sibling))
                ge.key ge.value (.node false ul uk uv ur)) p
            | _ =>
              match pe.dir with
              | .right =>
                match rotate_left (attach z pe) with
                | some (.node _ zl zk zv zr) =>
                  match rotate_right (attach (attach zl (Entry.mk .left false zk zv zr))
                      (Entry.mk .left true ge.key ge.value ge.sibling)) with
                  | some (.node c2 l2 k2 v2 r2) =>
                    fixGoF fuel l2 (Entry.mk .left c2 k2 v2 r2 :: p)
                  | _ => none
                | _ => none
              | .left =>
                match rotate_right (attach (attach z (Entry.mk .left false pe.key pe.value pe.sibling))
                    (Entry.mk .left true ge.key ge.value ge.sibling)) with
                | some (.node c2 l2 k2 v2 r2) =>
                  fixGoF fuel l2 (Entry.mk .left c2 k2 v2 r2 :: p)
                | _ => none
          | .right =>
            match ge.sibling with
            | .node true ul uk uv ur =>
              fixGoF fuel (.node true (.node false ul uk uv ur) ge.key ge.value
                (attach z (Entry.mk pe.dir false pe.key pe.value pe.sibling))) p
            | _ =>
              match pe.dir with
              | .left =>
                match rotate_right (attach z pe) with
                | some (.node _ zl zk zv zr) =>
                  match rotate_left (attach (attach zr (Entry.mk .right false zk zv zl))
                      (Entry.mk .right true ge.key ge.value ge.sibling)) with
                  | some (.node c2 l2 k2 v2 r2) =>
                    fixGoF fuel r2 (Entry.mk .right c2 k2 v2 l2 :: p)
                  | _ => none
                | _ => none
              | .right =>
                match rotate_left (attach (attach z (Entry.mk .right false pe.key pe.value pe.sibling))
                    (Entry.mk .right true ge.key ge.value ge.sibling)) with
                | some (.node c2 l2 k2 v2 r2) =>
                  fixGoF fuel r2 (Entry.mk .right c2 k2 v2 l2 :: p)
                | _ => none

/-! ### The comparator as specified

The specification's own description of the comparator (section 4.1): scan
byte-by-byte over the shorter length, the first differing byte (as an unsigned
value) decides; if all compared bytes agree, the shorter sequence is LESS and
equal lengths give EQUAL. -/

/-- Modelled from the spec's words for the key comparator (section 4.1), as the
reference point of claim C5; to be compared against `compare_keys`, which is
translated from the source. -/
def lexicographicSpec (a b : Key) : Int :=
  match (List.range (min a.length b.length)).find? (fun i => a.getD i 0 != b.getD i 0) with
  | some i => if a.getD i 0 < b.getD i 0 then -1 else 1
  | none =>
    if a.length < b.length then -1
    else if b.length < a.length then 1
    else 0

/-! ### Properties of the comparator -/

theorem compare_keys_cons_iff (x y : Nat) (as bs : Key) :
    compare_keys (x :: as) (y :: bs) = -1 ↔
      x < y ∨ (x = y ∧ compare_keys as bs = -1) := by
  simp only [compare_keys]
  rcases Nat.lt_trichotomy x y with h | h | h
  · simp [h, Nat.lt_asymm h]
  · subst h
    simp [Nat.lt_irrefl]
  · simp [Nat.lt_asymm h, h, Nat.ne_of_gt h]

theorem compare_keys_self (a : Key) : compare_keys a a = 0 := by
  induction a with
  | nil => rfl
  | cons x as ih => simp [compare_keys, Nat.lt_irrefl, ih]

theorem compare_keys_eq_zero : ∀ a b : Key, compare_keys a b = 0 ↔ a = b := by
  intro a
  induction a with
  | nil => intro b; cases b <;> simp [compare_keys]
  | cons x as ih =>
    intro b
    cases b with
    | nil => simp [compare_keys]
    | cons y bs =>
      simp only [compare_keys]
      rcases Nat.lt_trichotomy x y with h | h | h
      · simp [h, Nat.ne_of_lt h]
      · subst h
        simp [Nat.lt_irrefl, ih]
      · simp [Nat.lt_asymm h, h, Nat.ne_of_gt h]

theorem compare_keys_swap : ∀ a b : Key, compare_keys b a = - compare_keys a b := by
  intro a
  induction a with
  | nil => intro b; cases b <;> simp [compare_keys]
  | cons x as ih =>
    intro b
    cases b with
    | nil => simp [compare_keys]
    | cons y bs =>
      simp only [compare_keys]
      rcases Nat.lt_trichotomy x y with h | h | h
      · simp [h, Nat.lt_asymm h]
      · subst h
        simp [Nat.lt_irrefl, ih]
      · simp [Nat.lt_asymm h, h]

theorem compare_keys_cases (a b : Key) :
    compare_keys a b = -1 ∨ compare_keys a b = 0 ∨ compare_keys a b = 1 := by
  induction a generalizing b with
  | nil => cases b <;> simp [compare_keys]
  | cons x as ih =>
    cases b with
    | nil => simp [compare_keys]
    | cons y bs =>
      simp only [compare_keys]
      rcases Nat.lt_trichotomy x y with h | h | h
      · simp [h]
      · subst h
        simpa [Nat.lt_irrefl] using ih bs
      · simp [Nat.lt_asymm h, h]

theorem compare_keys_trans :
    ∀ a b c : Key, compare_keys a b = -1 → compare_keys b c = -1 →
      compare_keys a c = -1 := by
  intro a
  induction a with
  | nil =>
    intro b c hab hbc
    cases c with
    | nil =>
      cases b with
      | nil => exact hab
      | cons y bs => simp [compare_keys] at hbc
    | cons z cs => rfl
  | cons x as ih =>
    intro b c hab hbc
    cases b with
    | nil => simp [compare_keys] at hab
    | cons y bs =>
      cases c with
      | nil => simp [compare_keys] at hbc
      | cons z cs =>
        rw [compare_keys_cons_iff] at hab hbc ⊢
        rcases hab with h1 | ⟨rfl, h1⟩
        · rcases hbc with h2 | ⟨rfl, h2⟩
          · exact Or.inl (Nat.lt_trans h1 h2)
          · exact Or.inl h1
        · rcases hbc with h2 | ⟨rfl, h2⟩
          · exact Or.inl h2
          · exact Or.inr ⟨rfl, ih bs cs h1 h2⟩

theorem compare_keys_spec : ∀ a b : Key, compare_keys a b = lexicographicSpec a b := by
  intro a
  induction a with
  | nil =>
    intro b
    cases b with
    | nil => rfl
    | cons y bs =>
      simp [compare_keys, lexicographicSpec, Nat.zero_min, List.range_zero]
  | cons x as ih =>
    intro b
    cases b with
    | nil =>
      simp [compare_keys, lexicographicSpec, Nat.min_zero, List.range_zero]
    | cons y bs =>
      have hmin : min (x :: as).length (y :: bs).length = min as.length bs.length + 1 := by
        simp [List.length_cons, Nat.succ_min_succ]
      simp only [lexicographicSpec, hmin, List.range_succ_eq_map, List.find?_cons,
        List.getD_cons_zero, List.getD_cons_succ]
      rcases Nat.lt_trichotomy x y with h | h | h
      · have hxy : (x != y) = true := by simp [Nat.ne_of_lt h]
        simp [hxy, compare_keys, h]
      · subst h
        have hxx : (x != x) = false := by simp
        have hcomp :
            ((fun i => (x :: as).getD i 0 != (x :: bs).getD i 0) ∘ Nat.succ) =
              (fun i => as.getD i 0 != bs.getD i 0) := by
          funext i
          simp [Function.comp, List.getD_cons_succ]
        simp only [hxx, List.find?_map, hcomp]
        have hl : compare_keys (x :: as) (x :: bs) = compare_keys as bs := by
          simp [compare_keys]
        rw [hl, ih bs]
        simp only [lexicographicSpec]
        cases hfind : (List.range (min as.length bs.length)).find?
            (fun i => as.getD i 0 != bs.getD i 0) with
        | none => simp [List.length_cons, Nat.succ_lt_succ_iff]
        | some i => simp [List.getD_cons_succ]
      · have hxy : (x != y) = true := by simp [Nat.ne_of_gt h]
        simp [hxy, compare_keys, Nat.lt_asymm h, h]

/-! ### Zipper plumbing and in-order traversal -/

theorem plug_cons (t : Tree) (e : Entry) (p : List Entry) :
    plug t (e :: p) = plug (attach t e) p := rfl

theorem toList_plug_congr :
    ∀ (p : List Entry) (t1 t2 : Tree), toList t1 = toList t2 →
      toList (plug t1 p) = toList (plug t2 p) := by
  intro p
  induction p with
  | nil => intro t1 t2 h; simpa [plug] using h
  | cons e rest ih =>
    intro t1 t2 h
    rw [plug_cons, plug_cons]
    apply ih
    obtain ⟨d, c, k, v, s⟩ := e
    cases d <;> simp [attach, toList, h]

theorem toList_blacken (t : Tree) : toList (blacken t) = toList t := by
  cases t <;> simp [blacken, toList]

/-- Every step of the fixup loop is a recolouring or a rotation, and none of
them changes the in-order sequence of stored entries. -/
theorem fixGo_toList :
    ∀ (N : Nat) (path : List Entry) (z t : Tree), path.length ≤ N →
      fixGo z path = some t → toList t = toList (plug z path) := by
  intro N
  induction N with
  | zero =>
    intro path z t hlen h
    have hp : path = [] := List.length_eq_zero.mp (Nat.le_zero.mp hlen)
    subst hp
    simp only [fixGo, Option.some.injEq] at h
    subst h
    rfl
  | succ N ih =>
    intro path z t hlen h
    rcases path with _ | ⟨⟨pdir, pcol, pk, pv, psib⟩, rest⟩
    · simp only [fixGo, Option.some.injEq] at h
      subst h
      rfl
    cases pcol with
    | false =>
      simp only [fixGo, Option.some.injEq] at h
      subst h
      rfl
    | true =>
      rcases rest with _ | ⟨⟨gdir, gcol, gk, gv, gsib⟩, p⟩
      · simp [fixGo] at h
      have hlp : p.length ≤ N := by
        simp only [List.length_cons] at hlen
        omega
      cases gdir with
      | left =>
        rcases gsib with _ | ⟨uc, ul, uk, uv, ur⟩
        case nil =>
          cases pdir with
          | left =>
            simp only [fixGo, attach, rotate_right, Option.some.injEq] at h
            subst h
            rw [plug_cons, plug_cons]
            apply toList_plug_congr
            simp [attach, toList, List.append_assoc]
          | right =>
            cases z with
            | nil => simp [fixGo, attach, rotate_left] at h
            | node zc zl zk zv zr =>
              simp only [fixGo, attach, rotate_left, rotate_right, Option.some.injEq] at h
              subst h
              rw [plug_cons, plug_cons]
              apply toList_plug_congr
              simp [attach, toList, List.append_assoc]
        case node =>
          cases uc with
          | false =>
            cases pdir with
            | left =>
              simp only [fixGo, attach, rotate_right, Option.some.injEq] at h
              subst h
              rw [plug_cons, plug_cons]
              apply toList_plug_congr
              simp [attach, toList, List.append_assoc]
            | right =>
              cases z with
              | nil => simp [fixGo, attach, rotate_left] at h
              | node zc zl zk zv zr =>
                simp only [fixGo, attach, rotate_left, rotate_right, Option.some.injEq] at h
                subst h
                rw [plug_cons, plug_cons]
                apply toList_plug_congr
                simp [attach, toList, List.append_assoc]
          | true =>
            simp only [fixGo] at h
            have hrec := ih p _ t hlp h
            rw [hrec, plug_cons, plug_cons]
            apply toList_plug_congr
            cases pdir <;> simp [attach, toList, List.append_assoc]
      | right =>
        rcases gsib with _ | ⟨uc, ul, uk, uv, ur⟩
        case nil =>
          cases pdir with
          | right =>
            simp only [fixGo, attach, rotate_left, Option.some.injEq] at h
            subst h
            rw [plug_cons, plug_cons]
            apply toList_plug_congr
            simp [attach, toList, List.append_assoc]
          | left =>
            cases z with
            | nil => simp [fixGo, attach, rotate_right] at h
            | node zc zl zk zv zr =>
              simp only [fixGo, attach, rotate_left, rotate_right, Option.some.injEq] at h
              subst h
              rw [plug_cons, plug_cons]
              apply toList_plug_congr
              simp [attach, toList, List.append_assoc]
        case node =>
          cases uc with
          | false =>
            cases pdir with
            | right =>
              simp only [fixGo, attach, rotate_left, Option.some.injEq] at h
              subst h
              rw [plug_cons, plug_cons]
              apply toList_plug_congr
              simp [attach, toList, List.append_assoc]
            | left =>
              cases z with
              | nil => simp [fixGo, attach, rotate_right] at h
              | node zc zl zk zv zr =>
                simp only [fixGo, attach, rotate_left, rotate_right, Option.some.injEq] at h
                subst h
                rw [plug_cons, plug_cons]
                apply toList_plug_congr
                simp [attach, toList, List.append_assoc]
          | true =>
            simp only [fixGo] at h
            have hrec := ih p _ t hlp h
            rw [hrec, plug_cons, plug_cons]
            apply toList_plug_congr
            cases pdir <;> simp [attach, toList, List.append_assoc]

/-- `fix_insert` preserves the in-order sequence of the rebuilt tree. -/
theorem fix_insert_toList (path : List Entry) (z t : Tree)
    (h : fix_insert z path = some t) : toList t = toList (plug z path) := by
  simp only [fix_insert, Option.map_eq_some'] at h
  obtain ⟨t0, h0, rfl⟩ := h
  rw [toList_blacken]
  exact fixGo_toList path.length path z t0 (Nat.le_refl _) h0

/-! ### The red-black balance invariant -/

/-- Red-black balance: `Balanced t c n` states that `t`'s root has colour `c`
(`true` = RED, with an absent tree counting as BLACK), no RED node inside `t`
has a RED child, and every path from the root of `t` down to an absent-child
slot passes through exactly `n` BLACK nodes. -/
inductive Balanced : Tree → Bool → Nat → Prop where
  | nil : Balanced .nil false 0
  | red {l r : Tree} {k : Key} {v : Val} {n : Nat} :
      Balanced l false n → Balanced r false n →
      Balanced (.node true l k v r) true n
  | black {l r : Tree} {cl cr : Bool} {k : Key} {v : Val} {n : Nat} :
      Balanced l cl n → Balanced r cr n →
      Balanced (.node false l k v r) false (n + 1)

/-- Balance of an ancestor chain: `PathBal p c n c0 n0` states that filling the
hole at the bottom of `p` with any tree balanced with root colour `c` and black
height `n` produces a whole tree balanced with root colour `c0` and black
height `n0`.  A RED parent entry forces a BLACK hole. -/
inductive PathBal : List Entry → Bool → Nat → Bool → Nat → Prop where
  | nil {c : Bool} {n : Nat} : PathBal [] c n c n
  | redL {rest : List Entry} {k : Key} {v : Val} {sib : Tree} {n : Nat}
      {c0 : Bool} {n0 : Nat} :
      Balanced sib false n → PathBal rest true n c0 n0 →
      PathBal (Entry.mk .left true k v sib :: rest) false n c0 n0
  | redR {rest : List Entry} {k : Key} {v : Val} {sib : Tree} {n : Nat}
      {c0 : Bool} {n0 : Nat} :
      Balanced sib false n → PathBal rest true n c0 n0 →
      PathBal (Entry.mk .right true k v sib :: rest) false n c0 n0
  | blackL {rest : List Entry} {k : Key} {v : Val} {sib : Tree} {c cs : Bool}
      {n : Nat} {c0 : Bool} {n0 : Nat} :
      Balanced sib cs n → PathBal rest false (n + 1) c0 n0 →
      PathBal (Entry.mk .left false k v sib :: rest) c n c0 n0
  | blackR {rest : List Entry} {k : Key} {v : Val} {sib : Tree} {c cs : Bool}
      {n : Nat} {c0 : Bool} {n0 : Nat} :
      Balanced sib cs n → PathBal rest false (n + 1) c0 n0 →
      PathBal (Entry.mk .right false k v sib :: rest) c n c0 n0

theorem plug_balanced {p : List Entry} {c : Bool} {n : Nat} {c0 : Bool} {n0 : Nat}
    (hp : PathBal p c n c0 n0) :
    ∀ {t : Tree}, Balanced t c n → Balanced (plug t p) c0 n0 := by
  induction hp with
  | nil => intro t ht; exact ht
  | redL hs _ ih => intro t ht; exact ih (Balanced.red ht hs)
  | redR hs _ ih => intro t ht; exact ih (Balanced.red hs ht)
  | blackL hs _ ih => intro t ht; exact ih (Balanced.black ht hs)
  | blackR hs _ ih => intro t ht; exact ih (Balanced.black hs ht)

theorem blacken_balanced {t : Tree} {c : Bool} {n : Nat} (h : Balanced t c n) :
    ∃ m, Balanced (blacken t) false m := by
  cases h with
  | nil => exact ⟨0, Balanced.nil⟩
  | red hl hr => exact ⟨_, Balanced.black hl hr⟩
  | black hl hr => exact ⟨_, Balanced.black hl hr⟩

/-- Main invariant argument for the fixup loop, following the classic loop
invariant of the iterative insertion fixup: the focus is a RED tree whose own
subtrees are balanced, and the ancestor chain is balanced around a BLACK-typed
hole with black root overall; then the loop never dereferences a null pointer
and rebuilds a balanced tree. -/
theorem fixGo_balanced :
    ∀ (N : Nat) (path : List Entry) (z : Tree) (n n0 : Nat), path.length ≤ N →
      Balanced z true n → PathBal path false n false n0 →
      ∃ t, fixGo z path = some t ∧ (Balanced t false n0 ∨ Balanced t true n0) := by
  intro N
  induction N with
  | zero =>
    intro path z n n0 hlen hz hp
    have hnil : path = [] := List.length_eq_zero.mp (Nat.le_zero.mp hlen)
    subst hnil
    cases hp
    exact ⟨z, rfl, Or.inr hz⟩
  | succ N ih =>
    intro path z n n0 hlen hz hp
    rcases path with _ | ⟨⟨pdir, pcol, pk, pv, psib⟩, rest⟩
    · cases hp
      exact ⟨z, rfl, Or.inr hz⟩
    cases hz with
    | red hzl hzr =>
      rename_i zl zr zk zv
      cases pcol with
      | false =>
        cases hp with
        | blackL hsib hrest =>
          exact ⟨_, rfl, Or.inl (plug_balanced hrest
            (Balanced.black (Balanced.red hzl hzr) hsib))⟩
        | blackR hsib hrest =>
          exact ⟨_, rfl, Or.inl (plug_balanced hrest
            (Balanced.black hsib (Balanced.red hzl hzr)))⟩
      | true =>
        cases hp with
        | redL hsib hrest =>
          rcases rest with _ | ⟨⟨gdir, gcol, gk, gv, gsib⟩, p⟩
          · cases hrest
          have hlp : p.length ≤ N := by
            simp only [List.length_cons] at hlen
            omega
          cases hrest with
          | blackL huncle hrest2 =>
            -- parent is the LEFT child of the grandparent, focus is the LEFT child:
            -- outer grandchild
            cases huncle with
            | nil =>
              refine ⟨plug (.node false (.node true zl zk zv zr) pk pv
                  (.node true psib gk gv .nil)) p, ?_,
                Or.inl (plug_balanced hrest2 (Balanced.black (Balanced.red hzl hzr)
                  (Balanced.red hsib Balanced.nil)))⟩
              simp [fixGo, attach, rotate_right]
            | red hul hur =>
              rename_i ul ur uk uv
              obtain ⟨t, ht, hd⟩ := ih p (.node true
                  (.node false (.node true zl zk zv zr) pk pv psib) gk gv
                  (.node false ul uk uv ur)) (n + 1) n0 hlp
                (Balanced.red (Balanced.black (Balanced.red hzl hzr) hsib)
                  (Balanced.black hul hur)) hrest2
              refine ⟨t, ?_, hd⟩
              simp only [fixGo, attach]
              exact ht
            | black hul hur =>
              rename_i ul ur ucl ucr uk uv un
              refine ⟨plug (.node false (.node true zl zk zv zr) pk pv
                  (.node true psib gk gv (.node false ul uk uv ur))) p, ?_,
                Or.inl (plug_balanced hrest2 (Balanced.black (Balanced.red hzl hzr)
                  (Balanced.red hsib (Balanced.black hul hur))))⟩
              simp [fixGo, attach, rotate_right]
          | blackR huncle hrest2 =>
            -- parent is the RIGHT child of the grandparent, focus is the LEFT child:
            -- inner grandchild, double rotation
            cases huncle with
            | nil =>
              refine ⟨plug (.node false (.node true .nil gk gv zl) zk zv
                  (.node true zr pk pv psib)) p, ?_,
                Or.inl (plug_balanced hrest2 (Balanced.black
                  (Balanced.red Balanced.nil hzl) (Balanced.red hzr hsib)))⟩
              simp [fixGo, attach, rotate_left, rotate_right]
            | red hul hur =>
              rename_i ul ur uk uv
              obtain ⟨t, ht, hd⟩ := ih p (.node true (.node false ul uk uv ur) gk gv
                  (.node false (.node true zl zk zv zr) pk pv psib)) (n + 1) n0 hlp
                (Balanced.red (Balanced.black hul hur)
                  (Balanced.black (Balanced.red hzl hzr) hsib)) hrest2
              refine ⟨t, ?_, hd⟩
              simp only [fixGo, attach]
              exact ht
            | black hul hur =>
              rename_i ul ur ucl ucr uk uv un
              refine ⟨plug (.node false (.node true (.node false ul uk uv ur) gk gv zl)
                  zk zv (.node true zr pk pv psib)) p, ?_,
                Or.inl (plug_balanced hrest2 (Balanced.black
                  (Balanced.red (Balanced.black hul hur) hzl)
                  (Balanced.red hzr hsib)))⟩
              simp [fixGo, attach, rotate_left, rotate_right]
        | redR hsib hrest =>
          rcases rest with _ | ⟨⟨gdir, gcol, gk, gv, gsib⟩, p⟩
          · cases hrest
          have hlp : p.length ≤ N := by
            simp only [List.length_cons] at hlen
            omega
          cases hrest with
          | blackL huncle hrest2 =>
            -- parent is the LEFT child of the grandparent, focus is the RIGHT child:
            -- inner grandchild, double rotation
            cases huncle with
            | nil =>
              refine ⟨plug (.node false (.node true psib pk pv zl) zk zv
                  (.node true zr gk gv .nil)) p, ?_,
                Or.inl (plug_balanced hrest2 (Balanced.black
                  (Balanced.red hsib hzl) (Balanced.red hzr Balanced.nil)))⟩
              simp [fixGo, attach, rotate_left, rotate_right]
            | red hul hur =>
              rename_i ul ur uk uv
              obtain ⟨t, ht, hd⟩ := ih p (.node true
                  (.node false psib pk pv (.node true zl zk zv zr)) gk gv
                  (.node false ul uk uv ur)) (n + 1) n0 hlp
                (Balanced.red (Balanced.black hsib (Balanced.red hzl hzr))
                  (Balanced.black hul hur)) hrest2
              refine ⟨t, ?_, hd⟩
              simp only [fixGo, attach]
              exact ht
            | black hul hur =>
              rename_i ul ur ucl ucr uk uv un
              refine ⟨plug (.node false (.node true psib pk pv zl) zk zv
                  (.node true zr gk gv (.node false ul uk uv ur))) p, ?_,
                Or.inl (plug_balanced hrest2 (Balanced.black
                  (Balanced.red hsib hzl)
                  (Balanced.red hzr (Balanced.black hul hur))))⟩
              simp [fixGo, attach, rotate_left, rotate_right]
          | blackR huncle hrest2 =>
            -- parent is the RIGHT child of the grandparent, focus is the RIGHT child:
            -- outer grandchild
            cases huncle with
            | nil =>
              refine ⟨plug (.node false (.node true .nil gk gv psib) pk pv
                  (.node true zl zk zv zr)) p, ?_,
                Or.inl (plug_balanced hrest2 (Balanced.black
                  (Balanced.red Balanced.nil hsib) (Balanced.red hzl hzr)))⟩
              simp [fixGo, attach, rotate_left]
            | red hul hur =>
              rename_i ul ur uk uv
              obtain ⟨t, ht, hd⟩ := ih p (.node true (.node false ul uk uv ur) gk gv
                  (.node false psib pk pv (.node true zl zk zv zr))) (n + 1) n0 hlp
                (Balanced.red (Balanced.black hul hur)
                  (Balanced.black hsib (Balanced.red hzl hzr))) hrest2
              refine ⟨t, ?_, hd⟩
              simp only [fixGo, attach]
              exact ht
            | black hul hur =>
              rename_i ul ur ucl ucr uk uv un
              refine ⟨plug (.node false (.node true (.node false ul uk uv ur) gk gv psib)
                  pk pv (.node true zl zk zv zr)) p, ?_,
                Or.inl (plug_balanced hrest2 (Balanced.black
                  (Balanced.red (Balanced.black hul hur) hsib)
                  (Balanced.red hzl hzr)))⟩
              simp [fixGo, attach, rotate_left]

theorem fix_insert_balanced {path : List Entry} {z : Tree} {n n0 : Nat}
    (hz : Balanced z true n) (hp : PathBal path false n false n0) :
    ∃ t m, fix_insert z path = some t ∧ Balanced t false m := by
  obtain ⟨t0, h0, hd⟩ := fixGo_balanced path.length path z n n0 (Nat.le_refl _) hz hp
  have hbl : ∃ m, Balanced (blacken t0) false m := by
    cases hd with
    | inl h => exact blacken_balanced h
    | inr h => exact blacken_balanced h
  obtain ⟨m, hm⟩ := hbl
  exact ⟨blacken t0, m, by simp [fix_insert, h0], hm⟩

theorem putDescend_balanced :
    ∀ (cur : Tree) (path : List Entry) (k : Key) (v : Val) (c : Bool) (n n0 : Nat),
      Balanced cur c n → PathBal path c n false n0 →
      ∃ t m, putDescend k v cur path = some t ∧ Balanced t false m := by
  intro cur
  induction cur with
  | nil =>
    intro path k v c n n0 hcur hp
    cases hcur
    rcases path with _ | ⟨⟨pdir, pcol, pk, pv, psib⟩, rest⟩
    · cases hp
      exact ⟨.node false .nil k v .nil, 1, rfl,
        Balanced.black Balanced.nil Balanced.nil⟩
    by_cases hcmp : compare_keys k pk < 0
    · cases pcol with
      | false =>
        cases hp with
        | blackL hsib hrest =>
          obtain ⟨t, m, ht, hm⟩ := fix_insert_balanced
            (Balanced.red Balanced.nil Balanced.nil) (PathBal.blackL hsib hrest)
          exact ⟨t, m, by simpa [putDescend, hcmp] using ht, hm⟩
        | blackR hsib hrest =>
          obtain ⟨t, m, ht, hm⟩ := fix_insert_balanced
            (Balanced.red Balanced.nil Balanced.nil)
            (PathBal.blackL Balanced.nil hrest)
          exact ⟨t, m, by simpa [putDescend, hcmp] using ht, hm⟩
      | true =>
        cases hp with
        | redL hsib hrest =>
          obtain ⟨t, m, ht, hm⟩ := fix_insert_balanced
            (Balanced.red Balanced.nil Balanced.nil) (PathBal.redL hsib hrest)
          exact ⟨t, m, by simpa [putDescend, hcmp] using ht, hm⟩
        | redR hsib hrest =>
          obtain ⟨t, m, ht, hm⟩ := fix_insert_balanced
            (Balanced.red Balanced.nil Balanced.nil)
            (PathBal.redL Balanced.nil hrest)
          exact ⟨t, m, by simpa [putDescend, hcmp] using ht, hm⟩
    · cases pcol with
      | false =>
        cases hp with
        | blackL hsib hrest =>
          obtain ⟨t, m, ht, hm⟩ := fix_insert_balanced
            (Balanced.red Balanced.nil Balanced.nil)
            (PathBal.blackR Balanced.nil hrest)
          exact ⟨t, m, by simpa [putDescend, hcmp] using ht, hm⟩
        | blackR hsib hrest =>
          obtain ⟨t, m, ht, hm⟩ := fix_insert_balanced
            (Balanced.red Balanced.nil Balanced.nil)
            (PathBal.blackR hsib hrest)
          exact ⟨t, m, by simpa [putDescend, hcmp] using ht, hm⟩
      | true =>
        cases hp with
        | redL hsib hrest =>
          obtain ⟨t, m, ht, hm⟩ := fix_insert_balanced
            (Balanced.red Balanced.nil Balanced.nil)
            (PathBal.redR Balanced.nil hrest)
          exact ⟨t, m, by simpa [putDescend, hcmp] using ht, hm⟩
        | redR hsib hrest =>
          obtain ⟨t, m, ht, hm⟩ := fix_insert_balanced
            (Balanced.red Balanced.nil Balanced.nil)
            (PathBal.redR hsib hrest)
          exact ⟨t, m, by simpa [putDescend, hcmp] using ht, hm⟩
  | node c' l nk nv r ihl ihr =>
    intro path k v c n n0 hcur hp
    rcases compare_keys_cases k nk with hc | hc | hc
    · -- descend left
      cases hcur with
      | red hl hr =>
        obtain ⟨t, m, ht, hm⟩ := ihl (Entry.mk .left true nk nv r :: path) k v
          false n n0 hl (PathBal.redL hr hp)
        exact ⟨t, m, by simpa [putDescend, hc] using ht, hm⟩
      | black hl hr =>
        obtain ⟨t, m, ht, hm⟩ := ihl (Entry.mk .left false nk nv r :: path) k v
          _ _ n0 hl (PathBal.blackL hr hp)
        exact ⟨t, m, by simpa [putDescend, hc] using ht, hm⟩
    · -- equal keys: in-place value replacement
      have hrepl : ∃ m, Balanced (Tree.node c' l nk v r) c m ∧ m = n := by
        cases hcur with
        | red hl hr => exact ⟨_, Balanced.red hl hr, rfl⟩
        | black hl hr => exact ⟨_, Balanced.black hl hr, rfl⟩
      obtain ⟨m, hm, rfl⟩ := hrepl
      exact ⟨plug (Tree.node c' l nk v r) path, n0,
        by simp [putDescend, hc], plug_balanced hp hm⟩
    · -- descend right
      cases hcur with
      | red hl hr =>
        obtain ⟨t, m, ht, hm⟩ := ihr (Entry.mk .right true nk nv l :: path) k v
          false n n0 hr (PathBal.redR hl hp)
        exact ⟨t, m, by simpa [putDescend, hc] using ht, hm⟩
      | black hl hr =>
        obtain ⟨t, m, ht, hm⟩ := ihr (Entry.mk .right false nk nv l :: path) k v
          _ _ n0 hr (PathBal.blackR hl hp)
        exact ⟨t, m, by simpa [putDescend, hc] using ht, hm⟩

theorem put_balanced {t : Tree} {n : Nat} (ht : Balanced t false n) (k : Key) (v : Val) :
    ∃ t' m, put t k v = some t' ∧ Balanced t' false m := by
  cases t with
  | nil =>
    exact ⟨.node false .nil k v .nil, 1, rfl,
      Balanced.black Balanced.nil Balanced.nil⟩
  | node c l nk nv r =>
    obtain ⟨t', m, h, hm⟩ := putDescend_balanced (.node c l nk nv r) [] k v false n n
      ht PathBal.nil
    exact ⟨t', m, h, hm⟩

/-! ### Ordering machinery -/

/-- Strict comparator order on keys: `a` compares LESS than `b`. -/
def klt (a b : Key) : Prop := compare_keys a b = -1

instance (a b : Key) : Decidable (klt a b) := by
  unfold klt
  infer_instance

theorem klt_of_gt {a b : Key} (h : compare_keys a b = 1) : klt b a := by
  unfold klt
  rw [compare_keys_swap, h]

theorem gt_of_klt {a b : Key} (h : klt b a) : compare_keys a b = 1 := by
  rw [compare_keys_swap, h]
  rfl

theorem klt_irrefl (a : Key) : ¬ klt a a := by
  unfold klt
  rw [compare_keys_self]
  exact fun h => absurd h (by decide)

theorem klt_trans {a b c : Key} (h1 : klt a b) (h2 : klt b c) : klt a c :=
  compare_keys_trans a b c h1 h2

theorem klt_ne {a b : Key} (h : klt a b) : a ≠ b := by
  intro he
  subst he
  exact klt_irrefl a h

/-- `Ordered t`: the in-order key sequence is strictly increasing in comparator
order. -/
def Ordered (t : Tree) : Prop := (treeKeys t).Pairwise klt

/-- The effect of `put` on the in-order entry list: insert `(k, v)` at the
comparator position, or replace the value of an entry whose key compares
EQUAL. -/
def insUpd : List (Key × Val) → Key → Val → List (Key × Val)
  | [], k, v => [(k, v)]
  | (k', v') :: rest, k, v =>
    if compare_keys k k' = 0 then (k', v) :: rest
    else if compare_keys k k' = -1 then (k, v) :: (k', v') :: rest
    else (k', v') :: insUpd rest k v

theorem insUpd_cons_eq {k k' : Key} {v v' : Val} {rest : List (Key × Val)}
    (h : compare_keys k k' = 0) :
    insUpd ((k', v') :: rest) k v = (k', v) :: rest := by
  simp [insUpd, h]

theorem insUpd_cons_lt {k k' : Key} {v v' : Val} {rest : List (Key × Val)}
    (h : compare_keys k k' = -1) :
    insUpd ((k', v') :: rest) k v = (k, v) :: (k', v') :: rest := by
  simp [insUpd, h]

theorem insUpd_cons_gt {k k' : Key} {v v' : Val} {rest : List (Key × Val)}
    (h : compare_keys k k' = 1) :
    insUpd ((k', v') :: rest) k v = (k', v') :: insUpd rest k v := by
  simp [insUpd, h]

theorem insUpd_append_lt {A B : List (Key × Val)} {kb : Key} {vb : Val} {k : Key}
    {v : Val} (h : compare_keys k kb = -1) :
    insUpd (A ++ (kb, vb) :: B) k v = insUpd A k v ++ (kb, vb) :: B := by
  induction A with
  | nil =>
    rw [List.nil_append, insUpd_cons_lt h]
    rfl
  | cons a A' ih =>
    obtain ⟨ka, va⟩ := a
    rcases compare_keys_cases k ka with hc | hc | hc
    · rw [List.cons_append, insUpd_cons_lt hc, insUpd_cons_lt hc, List.cons_append,
        List.cons_append]
    · rw [List.cons_append, insUpd_cons_eq hc, insUpd_cons_eq hc, List.cons_append]
    · rw [List.cons_append, insUpd_cons_gt hc, insUpd_cons_gt hc, ih, List.cons_append]

theorem insUpd_skip {A B : List (Key × Val)} {k : Key} {v : Val}
    (h : ∀ x ∈ A, klt x.1 k) :
    insUpd (A ++ B) k v = A ++ insUpd B k v := by
  induction A with
  | nil => simp
  | cons a A' ih =>
    obtain ⟨ka, va⟩ := a
    have hka : klt ka k := h (ka, va) (List.mem_cons_self _ _)
    rw [List.cons_append, insUpd_cons_gt (gt_of_klt hka),
      ih (fun x hx => h x (List.mem_cons_of_mem _ hx)), List.cons_append]

theorem insUpd_mem (L : List (Key × Val)) (k : Key) (v : Val) :
    (k, v) ∈ insUpd L k v := by
  induction L with
  | nil => simp [insUpd]
  | cons a rest ih =>
    obtain ⟨ka, va⟩ := a
    rcases compare_keys_cases k ka with hc | hc | hc
    · rw [insUpd_cons_lt hc]
      exact List.mem_cons_self _ _
    · have hk : k = ka := (compare_keys_eq_zero k ka).mp hc
      subst hk
      rw [insUpd_cons_eq hc]
      exact List.mem_cons_self _ _
    · rw [insUpd_cons_gt hc]
      exact List.mem_cons_of_mem _ ih

theorem insUpd_subset {L : List (Key × Val)} {k : Key} {v : Val} :
    ∀ x ∈ insUpd L k v, x.1 = k ∨ x ∈ L := by
  induction L with
  | nil =>
    intro x hx
    simp only [insUpd, List.mem_singleton] at hx
    subst hx
    exact Or.inl rfl
  | cons a rest ih =>
    obtain ⟨ka, va⟩ := a
    intro x hx
    rcases compare_keys_cases k ka with hc | hc | hc
    · rw [insUpd_cons_lt hc] at hx
      rcases List.mem_cons.mp hx with rfl | hx
      · exact Or.inl rfl
      · exact Or.inr hx
    · have hk : k = ka := (compare_keys_eq_zero k ka).mp hc
      subst hk
      rw [insUpd_cons_eq hc] at hx
      rcases List.mem_cons.mp hx with rfl | hx
      · exact Or.inl rfl
      · exact Or.inr (List.mem_cons_of_mem _ hx)
    · rw [insUpd_cons_gt hc] at hx
      rcases List.mem_cons.mp hx with rfl | hx
      · exact Or.inr (List.mem_cons_self _ _)
      · rcases ih x hx with h | h
        · exact Or.inl h
        · exact Or.inr (List.mem_cons_of_mem _ h)

theorem insUpd_pairwise {L : List (Key × Val)} {k : Key} {v : Val}
    (h : (L.map Prod.fst).Pairwise klt) :
    ((insUpd L k v).map Prod.fst).Pairwise klt := by
  induction L with
  | nil => simp [insUpd]
  | cons a rest ih =>
    obtain ⟨ka, va⟩ := a
    simp only [List.map_cons, List.pairwise_cons] at h
    obtain ⟨h1, h2⟩ := h
    rcases compare_keys_cases k ka with hc | hc | hc
    · rw [insUpd_cons_lt hc]
      simp only [List.map_cons, List.pairwise_cons]
      refine ⟨?_, h1, h2⟩
      intro b hb
      rcases List.mem_cons.mp hb with rfl | hb
      · exact hc
      · exact klt_trans hc (h1 b hb)
    · rw [insUpd_cons_eq hc]
      simp only [List.map_cons, List.pairwise_cons]
      exact ⟨h1, h2⟩
    · rw [insUpd_cons_gt hc]
      simp only [List.map_cons, List.pairwise_cons]
      refine ⟨?_, ih h2⟩
      intro b hb
      obtain ⟨x, hx, rfl⟩ := List.mem_map.mp hb
      rcases insUpd_subset x hx with he | hx'
      · rw [he]
        exact klt_of_gt hc
      · exact h1 x.1 (List.mem_map.mpr ⟨x, hx', rfl⟩)

/-- Consistency of the head of the descent path with the key being inserted:
the source re-derives the comparison against the parent when linking the new
node, and this predicate records that the re-derived side agrees with the side
the descent actually took. -/
def headDirOk (k : Key) : List Entry → Prop
  | [] => True
  | pe :: _ =>
    (pe.dir = .left ∧ compare_keys k pe.key = -1) ∨
    (pe.dir = .right ∧ compare_keys k pe.key = 1)

theorem putDescend_toList :
    ∀ (cur : Tree) (path : List Entry) (k : Key) (v : Val)
      (L R : List (Key × Val)) (t : Tree),
      (∀ u : Tree, toList (plug u path) = L ++ toList u ++ R) →
      ((toList cur).map Prod.fst).Pairwise klt →
      (∀ x ∈ L, klt x.1 k) → (∀ x ∈ R, klt k x.1) →
      headDirOk k path →
      putDescend k v cur path = some t →
      toList t = L ++ insUpd (toList cur) k v ++ R := by
  intro cur
  induction cur with
  | nil =>
    intro path k v L R t hplug hord hL hR hhead h
    rcases path with _ | ⟨⟨pdir, pcol, pk, pv, psib⟩, rest⟩
    · have ht : t = Tree.node false .nil k v .nil := by
        simp only [putDescend, fix_insert, fixGo, Option.map_some', blacken,
          Option.some.injEq] at h
        exact h.symm
      have h0 := hplug Tree.nil
      simp only [plug, toList, List.append_nil] at h0
      obtain ⟨hL0, hR0⟩ := List.append_eq_nil.mp h0.symm
      subst ht hL0 hR0
      simp [toList, insUpd]
    · rcases hhead with ⟨hd, hcmp⟩ | ⟨hd, hcmp⟩
      · subst hd
        have hlt : compare_keys k pk < 0 := by rw [hcmp]; decide
        rw [show putDescend k v Tree.nil
            (Entry.mk .left pcol pk pv psib :: rest) =
            fix_insert (.node true .nil k v .nil)
              (Entry.mk .left pcol pk pv psib :: rest) from by
          simp [putDescend, hlt]] at h
        have htl := fix_insert_toList _ _ _ h
        rw [htl, hplug]
        rfl
      · subst hd
        have hnlt : ¬ compare_keys k pk < 0 := by rw [hcmp]; decide
        rw [show putDescend k v Tree.nil
            (Entry.mk .right pcol pk pv psib :: rest) =
            fix_insert (.node true .nil k v .nil)
              (Entry.mk .right pcol pk pv psib :: rest) from by
          simp [putDescend, hnlt]] at h
        have htl := fix_insert_toList _ _ _ h
        rw [htl, hplug]
        rfl
  | node c' l nk nv r ihl ihr =>
    intro path k v L R t hplug hord hL hR hhead h
    simp only [toList, List.map_append, List.map_cons] at hord
    rw [List.pairwise_append] at hord
    obtain ⟨hordl, hordr', hcross⟩ := hord
    rw [List.pairwise_cons] at hordr'
    obtain ⟨hnkr, hordr⟩ := hordr'
    have hlnk : ∀ x ∈ (toList l).map Prod.fst, klt x nk := fun x hx =>
      hcross x hx nk (List.mem_cons_self _ _)
    rcases compare_keys_cases k nk with hc | hc | hc
    · -- k compares LESS: descend left
      have h' : putDescend k v l (Entry.mk .left c' nk nv r :: path) = some t := by
        simpa [putDescend, hc] using h
      have hplug' : ∀ u : Tree,
          toList (plug u (Entry.mk .left c' nk nv r :: path)) =
            L ++ toList u ++ ((nk, nv) :: toList r ++ R) := by
        intro u
        rw [plug_cons]
        simp only [attach]
        rw [hplug (Tree.node c' u nk nv r)]
        simp [toList, List.append_assoc]
      have hR' : ∀ x ∈ (nk, nv) :: toList r ++ R, klt k x.1 := by
        intro x hx
        rcases List.mem_cons.mp hx with rfl | hx
        · exact hc
        · rcases List.mem_append.mp hx with hx | hx
          · exact klt_trans hc (hnkr x.1 (List.mem_map.mpr ⟨x, hx, rfl⟩))
          · exact hR x hx
      have hres := ihl (Entry.mk .left c' nk nv r :: path) k v L
        ((nk, nv) :: toList r ++ R) t hplug' hordl hL hR' (Or.inl ⟨rfl, hc⟩) h'
      rw [hres]
      simp only [toList]
      rw [insUpd_append_lt hc]
      simp [List.append_assoc]
    · -- k compares EQUAL: in-place value replacement
      have ht : t = plug (Tree.node c' l nk v r) path := by
        have : putDescend k v (Tree.node c' l nk nv r) path =
            some (plug (Tree.node c' l nk v r) path) := by
          simp [putDescend, hc]
        rw [this] at h
        exact (Option.some.injEq _ _).mp h |>.symm
      subst ht
      rw [hplug]
      have hk : k = nk := (compare_keys_eq_zero _ _).mp hc
      have hskip : insUpd (toList l ++ (nk, nv) :: toList r) k v =
          toList l ++ insUpd ((nk, nv) :: toList r) k v := by
        apply insUpd_skip
        intro x hx
        rw [hk]
        exact hlnk x.1 (List.mem_map.mpr ⟨x, hx, rfl⟩)
      simp only [toList, hskip, insUpd_cons_eq hc]
    · -- k compares GREATER: descend right
      have h' : putDescend k v r (Entry.mk .right c' nk nv l :: path) = some t := by
        simpa [putDescend, hc] using h
      have hplug' : ∀ u : Tree,
          toList (plug u (Entry.mk .right c' nk nv l :: path)) =
            (L ++ toList l ++ [(nk, nv)]) ++ toList u ++ R := by
        intro u
        rw [plug_cons]
        simp only [attach]
        rw [hplug (Tree.node c' l nk nv u)]
        simp [toList, List.append_assoc]
      have hL' : ∀ x ∈ L ++ toList l ++ [(nk, nv)], klt x.1 k := by
        intro x hx
        rcases List.mem_append.mp hx with hx | hx
        · rcases List.mem_append.mp hx with hx | hx
          · exact hL x hx
          · exact klt_trans (hlnk x.1 (List.mem_map.mpr ⟨x, hx, rfl⟩)) (klt_of_gt hc)
        · rw [List.mem_singleton.mp hx]
          exact klt_of_gt hc
      have hres := ihr (Entry.mk .right c' nk nv l :: path) k v
        (L ++ toList l ++ [(nk, nv)]) R t hplug' hordr hL' hR (Or.inr ⟨rfl, hc⟩) h'
      rw [hres]
      simp only [toList]
      have hsplit : toList l ++ (nk, nv) :: toList r =
          (toList l ++ [(nk, nv)]) ++ toList r := by
        simp
      rw [hsplit]
      rw [insUpd_skip (B := toList r)]
      · simp [List.append_assoc]
      · intro x hx
        rcases List.mem_append.mp hx with hx | hx
        · exact klt_trans (hlnk x.1 (List.mem_map.mpr ⟨x, hx, rfl⟩)) (klt_of_gt hc)
        · rw [List.mem_singleton.mp hx]
          exact klt_of_gt hc

theorem put_toList {t t' : Tree} {k : Key} {v : Val}
    (hord : Ordered t) (h : put t k v = some t') :
    toList t' = insUpd (toList t) k v := by
  cases t with
  | nil =>
    simp only [put, Option.some.injEq] at h
    subst h
    simp [toList, insUpd]
  | node c l nk nv r =>
    have hres := putDescend_toList (.node c l nk nv r) [] k v [] [] t'
      (fun u => by simp [plug]) hord (by simp) (by simp) trivial h
    simpa using hres

/-! ### Lookup correctness -/

theorem find_node_some :
    ∀ (t : Tree) (k k' : Key) (v' : Val), find_node t k = some (k', v') →
      k' = k ∧ (k', v') ∈ toList t := by
  intro t
  induction t with
  | nil => intro k k' v' h; simp [find_node] at h
  | node c l nk nv r ihl ihr =>
    intro k k' v' h
    rcases compare_keys_cases k nk with hc | hc | hc
    · have h' : find_node l k = some (k', v') := by
        simpa [find_node, hc] using h
      obtain ⟨he, hm⟩ := ihl k k' v' h'
      exact ⟨he, by simp [toList, hm]⟩
    · have h' : (nk, nv) = (k', v') := by
        simpa [find_node, hc] using h
      obtain ⟨rfl, rfl⟩ := Prod.mk.injEq nk nv k' v' |>.mp h'
      exact ⟨((compare_keys_eq_zero k nk).mp hc).symm, by simp [toList]⟩
    · have h' : find_node r k = some (k', v') := by
        simpa [find_node, hc] using h
      obtain ⟨he, hm⟩ := ihr k k' v' h'
      exact ⟨he, by simp [toList, hm]⟩

theorem find_node_of_mem :
    ∀ (t : Tree) (k : Key) (v : Val), ((toList t).map Prod.fst).Pairwise klt →
      (k, v) ∈ toList t → find_node t k = some (k, v) := by
  intro t
  induction t with
  | nil => intro k v _ hm; simp [toList] at hm
  | node c l nk nv r ihl ihr =>
    intro k v hord hmem
    simp only [toList, List.map_append, List.map_cons] at hord
    rw [List.pairwise_append] at hord
    obtain ⟨hordl, hordr', hcross⟩ := hord
    rw [List.pairwise_cons] at hordr'
    obtain ⟨hnkr, hordr⟩ := hordr'
    have hlnk : ∀ x ∈ (toList l).map Prod.fst, klt x nk := fun x hx =>
      hcross x hx nk (List.mem_cons_self _ _)
    simp only [toList, List.mem_append, List.mem_cons] at hmem
    rcases hmem with hml | hmid | hmr
    · have hc : compare_keys k nk = -1 :=
        hlnk k (List.mem_map.mpr ⟨(k, v), hml, rfl⟩)
      simp [find_node, hc, ihl k v hordl hml]
    · obtain ⟨rfl, rfl⟩ := Prod.mk.injEq k v nk nv |>.mp hmid
      simp [find_node, compare_keys_self]
    · have hc : compare_keys k nk = 1 :=
        gt_of_klt (hnkr k (List.mem_map.mpr ⟨(k, v), hmr, rfl⟩))
      simp [find_node, hc, ihr k v hordr hmr]

/-! ### Validity and reachability -/

/-- The maintained state invariant of the tree: BST ordering together with the
red-black balance conditions and a BLACK root. -/
def Valid (t : Tree) : Prop := Ordered t ∧ ∃ n, Balanced t false n

theorem valid_nil : Valid .nil := ⟨List.Pairwise.nil, 0, Balanced.nil⟩

theorem put_valid {t : Tree} (h : Valid t) (k : Key) (v : Val) :
    ∃ t', put t k v = some t' ∧ Valid t' := by
  obtain ⟨hord, n, hbal⟩ := h
  obtain ⟨t', m, hput, hbal'⟩ := put_balanced hbal k v
  refine ⟨t', hput, ?_, m, hbal'⟩
  show ((toList t').map Prod.fst).Pairwise klt
  rw [put_toList hord hput]
  exact insUpd_pairwise hord

theorem runPuts_valid :
    ∀ (ops : List (Key × Val)) (t0 : Tree), Valid t0 →
      ∃ t, runPuts t0 ops = some t ∧ Valid t := by
  intro ops
  induction ops with
  | nil => intro t0 h; exact ⟨t0, rfl, h⟩
  | cons a ops ih =>
    intro t0 h
    obtain ⟨ka, va⟩ := a
    obtain ⟨t1, hput, hv1⟩ := put_valid h ka va
    obtain ⟨t, hrun, hv⟩ := ih t1 hv1
    exact ⟨t, by simp [runPuts, hput, hrun], hv⟩

theorem runPuts_valid_of_eq {ops : List (Key × Val)} {t : Tree}
    (h : runPuts .nil ops = some t) : Valid t := by
  obtain ⟨t', h', hv⟩ := runPuts_valid ops .nil valid_nil
  rw [h] at h'
  cases h'
  exact hv

theorem runPuts_keys :
    ∀ (ops : List (Key × Val)) (t0 t : Tree), Valid t0 → runPuts t0 ops = some t →
      ∀ x ∈ toList t, x.1 ∈ ops.map Prod.fst ∨ x ∈ toList t0 := by
  intro ops
  induction ops with
  | nil =>
    intro t0 t _ h x hx
    simp only [runPuts] at h
    cases h
    exact Or.inr hx
  | cons a ops ih =>
    intro t0 t hv h x hx
    obtain ⟨ka, va⟩ := a
    simp only [runPuts] at h
    obtain ⟨t1, hput, hrun⟩ := Option.bind_eq_some.mp h
    have hv1 : Valid t1 := by
      obtain ⟨t1', hput', hv'⟩ := put_valid hv ka va
      rw [hput] at hput'
      cases hput'
      exact hv'
    rcases ih t1 t hv1 hrun x hx with h1 | h1
    · exact Or.inl (by simpa using Or.inr h1)
    · have htl : toList t1 = insUpd (toList t0) ka va := put_toList hv.1 hput
      rw [htl] at h1
      rcases insUpd_subset x h1 with he | hm
      · exact Or.inl (by simp [he])
      · exact Or.inr hm

/-! ### The red-black invariants in the spec's own terms -/

/-- Invariant 2 of the spec: the root, if present, is BLACK. -/
def rootIsBlack : Tree → Prop
  | .nil => True
  | .node c _ _ _ _ => c = false

/-- Whether the root of a tree is a RED node. -/
def redRoot : Tree → Bool
  | .node true _ _ _ _ => true
  | _ => false

/-- Invariant 3 of the spec: no RED node has a RED child. -/
def noRedRed : Tree → Prop
  | .nil => True
  | .node c l _ _ r =>
    (c = true → redRoot l = false ∧ redRoot r = false) ∧ noRedRed l ∧ noRedRed r

/-- The number of BLACK nodes on every path from the root to an absent-child
slot, listed slot by slot in left-to-right order. -/
def pathBlackCounts : Tree → List Nat
  | .nil => [0]
  | .node c l _ _ r =>
    (pathBlackCounts l ++ pathBlackCounts r).map
      (fun m => m + (if c = false then 1 else 0))

theorem balanced_noRedRed {t : Tree} {c : Bool} {n : Nat} (h : Balanced t c n) :
    noRedRed t := by
  induction h with
  | nil => trivial
  | red hl hr ihl ihr =>
    refine ⟨fun _ => ⟨?_, ?_⟩, ihl, ihr⟩
    · cases hl <;> rfl
    · cases hr <;> rfl
  | black hl hr ihl ihr => exact ⟨(fun hc => nomatch hc), ihl, ihr⟩

theorem balanced_rootBlack {t : Tree} {n : Nat} (h : Balanced t false n) :
    rootIsBlack t := by
  cases h <;> trivial

theorem balanced_pathCounts {t : Tree} {c : Bool} {n : Nat} (h : Balanced t c n) :
    ∀ m ∈ pathBlackCounts t, m = n := by
  induction h with
  | nil => intro m hm; simpa [pathBlackCounts] using hm
  | red hl hr ihl ihr =>
    intro m hm
    simp only [pathBlackCounts, List.map_append, List.mem_append, List.mem_map] at hm
    rcases hm with ⟨m0, hm0, rfl⟩ | ⟨m0, hm0, rfl⟩
    · rw [ihl m0 hm0]; simp
    · rw [ihr m0 hm0]; simp
  | black hl hr ihl ihr =>
    intro m hm
    simp only [pathBlackCounts, List.map_append, List.mem_append, List.mem_map] at hm
    rcases hm with ⟨m0, hm0, rfl⟩ | ⟨m0, hm0, rfl⟩
    · rw [ihl m0 hm0]; simp
    · rw [ihr m0 hm0]; simp

/-- Node-local form of the BST ordering invariant. -/
def localBST : Tree → Prop
  | .nil => True
  | .node _ l k _ r =>
    (∀ k' ∈ treeKeys l, klt k' k) ∧ (∀ k' ∈ treeKeys r, klt k k') ∧
      localBST l ∧ localBST r

theorem pairwise_localBST : ∀ t : Tree, (treeKeys t).Pairwise klt → localBST t := by
  intro t
  induction t with
  | nil => intro _; trivial
  | node c l k v r ihl ihr =>
    intro h
    simp only [treeKeys, toList, List.map_append, List.map_cons] at h
    rw [List.pairwise_append] at h
    obtain ⟨h1, h2', h3⟩ := h
    rw [List.pairwise_cons] at h2'
    obtain ⟨h2, h4⟩ := h2'
    exact ⟨fun k' hk' => h3 k' hk' k (List.mem_cons_self _ _), h2, ihl h1, ihr h4⟩

/-! ### Structure preservation on the overwrite path -/

theorem stripVals_plug_congr :
    ∀ (p : List Entry) (t1 t2 : Tree), stripVals t1 = stripVals t2 →
      stripVals (plug t1 p) = stripVals (plug t2 p) := by
  intro p
  induction p with
  | nil => intro t1 t2 h; simpa [plug] using h
  | cons e rest ih =>
    intro t1 t2 h
    rw [plug_cons, plug_cons]
    apply ih
    obtain ⟨d, c, k, v, s⟩ := e
    cases d <;> simp [attach, stripVals, h]

theorem size_plug_congr :
    ∀ (p : List Entry) (t1 t2 : Tree), size t1 = size t2 →
      size (plug t1 p) = size (plug t2 p) := by
  intro p
  induction p with
  | nil => intro t1 t2 h; simpa [plug] using h
  | cons e rest ih =>
    intro t1 t2 h
    rw [plug_cons, plug_cons]
    apply ih
    obtain ⟨d, c, k, v, s⟩ := e
    cases d <;> simp [attach, size, h]

theorem putDescend_replace :
    ∀ (cur : Tree) (path : List Entry) (k : Key) (v2 : Val),
      ((toList cur).map Prod.fst).Pairwise klt → k ∈ (toList cur).map Prod.fst →
      ∃ t, putDescend k v2 cur path = some t ∧
        stripVals t = stripVals (plug cur path) ∧ size t = size (plug cur path) := by
  intro cur
  induction cur with
  | nil => intro path k v2 _ hk; simp [toList] at hk
  | node c' l nk nv r ihl ihr =>
    intro path k v2 hord hk
    simp only [toList, List.map_append, List.map_cons] at hord
    rw [List.pairwise_append] at hord
    obtain ⟨hordl, hordr', hcross⟩ := hord
    rw [List.pairwise_cons] at hordr'
    obtain ⟨hnkr, hordr⟩ := hordr'
    have hlnk : ∀ x ∈ (toList l).map Prod.fst, klt x nk := fun x hx =>
      hcross x hx nk (List.mem_cons_self _ _)
    rcases compare_keys_cases k nk with hc | hc | hc
    · have hkl : k ∈ (toList l).map Prod.fst := by
        simp only [toList, List.map_append, List.map_cons, List.mem_append,
          List.mem_cons] at hk
        rcases hk with h | h | h
        · exact h
        · exfalso
          rw [h, compare_keys_self] at hc
          exact absurd hc (by decide)
        · exfalso
          have h1 := gt_of_klt (hnkr k h)
          rw [hc] at h1
          exact absurd h1 (by decide)
      obtain ⟨t, hpd, hstrip, hsize⟩ :=
        ihl (Entry.mk .left c' nk nv r :: path) k v2 hordl hkl
      exact ⟨t, by simpa [putDescend, hc] using hpd, hstrip, hsize⟩
    · refine ⟨plug (.node c' l nk v2 r) path, by simp [putDescend, hc], ?_, ?_⟩
      · exact stripVals_plug_congr path _ _ (by simp [stripVals])
      · exact size_plug_congr path _ _ (by simp [size])
    · have hkr : k ∈ (toList r).map Prod.fst := by
        simp only [toList, List.map_append, List.map_cons, List.mem_append,
          List.mem_cons] at hk
        rcases hk with h | h | h
        · exfalso
          have h1 := hlnk k h
          rw [klt] at h1
          rw [h1] at hc
          exact absurd hc (by decide)
        · exfalso
          rw [h, compare_keys_self] at hc
          exact absurd hc (by decide)
        · exact h
      obtain ⟨t, hpd, hstrip, hsize⟩ :=
        ihr (Entry.mk .right c' nk nv l :: path) k v2 hordr hkr
      exact ⟨t, by simpa [putDescend, hc] using hpd, hstrip, hsize⟩

/-! ### Termination of the fixup loop -/

/-- The iteration-budgeted fixup loop agrees with the loop itself whenever the
budget exceeds the depth of the starting node: every iteration either exits, or
moves the focus two levels up (RED-uncle case), or performs its terminating
rotation and exits on the next condition check, so the ancestor-chain length is
a strictly decreasing measure and the loop finishes within depth-many
iterations. -/
theorem fixGoF_eq_fixGo :
    ∀ (fuel : Nat) (path : List Entry) (z : Tree), path.length < fuel →
      fixGoF fuel z path = fixGo z path := by
  intro fuel
  induction fuel with
  | zero => intro path z h; exact absurd h (Nat.not_lt_zero _)
  | succ fuel ih =>
    intro path z h
    rcases path with _ | ⟨⟨pdir, pcol, pk, pv, psib⟩, rest⟩
    · rfl
    cases pcol with
    | false => rfl
    | true =>
      rcases rest with _ | ⟨⟨gdir, gcol, gk, gv, gsib⟩, p⟩
      · rfl
      have hp2 : p.length + 1 < fuel := by
        simp only [List.length_cons] at h
        omega
      have hp1 : p.length < fuel := Nat.lt_of_succ_lt hp2
      cases gdir with
      | left =>
        rcases gsib with _ | ⟨uc, ul, uk, uv, ur⟩
        case nil =>
          cases pdir with
          | left =>
            simp only [fixGoF, fixGo, attach, rotate_right]
            rw [ih _ _ (by simpa using hp2)]
            simp [fixGo, attach]
          | right =>
            cases z with
            | nil => rfl
            | node zc zl zk zv zr =>
              simp only [fixGoF, fixGo, attach, rotate_left, rotate_right]
              rw [ih _ _ (by simpa using hp2)]
              simp [fixGo, attach]
        case node =>
          cases uc with
          | false =>
            cases pdir with
            | left =>
              simp only [fixGoF, fixGo, attach, rotate_right]
              rw [ih _ _ (by simpa using hp2)]
              simp [fixGo, attach]
            | right =>
              cases z with
              | nil => rfl
              | node zc zl zk zv zr =>
                simp only [fixGoF, fixGo, attach, rotate_left, rotate_right]
                rw [ih _ _ (by simpa using hp2)]
                simp [fixGo, attach]
          | true =>
            simp only [fixGoF, fixGo]
            exact ih _ _ hp1
      | right =>
        rcases gsib with _ | ⟨uc, ul, uk, uv, ur⟩
        case nil =>
          cases pdir with
          | right =>
            simp only [fixGoF, fixGo, attach, rotate_left]
            rw [ih _ _ (by simpa using hp2)]
            simp [fixGo, attach]
          | left =>
            cases z with
            | nil => rfl
            | node zc zl zk zv zr =>
              simp only [fixGoF, fixGo, attach, rotate_left, rotate_right]
              rw [ih _ _ (by simpa using hp2)]
              simp [fixGo, attach]
        case node =>
          cases uc with
          | false =>
            cases pdir with
            | right =>
              simp only [fixGoF, fixGo, attach, rotate_left]
              rw [ih _ _ (by simpa using hp2)]
              simp [fixGo, attach]
            | left =>
              cases z with
              | nil => rfl
              | node zc zl zk zv zr =>
                simp only [fixGoF, fixGo, attach, rotate_left, rotate_right]
                rw [ih _ _ (by simpa using hp2)]
                simp [fixGo, attach]
          | true =>
            simp only [fixGoF, fixGo]
            exact ih _ _ hp1

/-! ### Concrete example data used by the witnesses -/

/-- Three inserts with ascending single-byte keys; the third triggers the
terminating rotation of the fixup. -/
def exOps : List (Key × Val) := [([0], [0]), ([1], [0]), ([2], [0])]

/-- The tree produced by `exOps`: BLACK root `[1]` with RED children. -/
def exTree : Tree :=
  .node false (.node true .nil [0] [0] .nil) [1] [0] (.node true .nil [2] [0] .nil)

/-! ### The claims -/

/-- C1: for every tree state satisfying the maintained invariants (BST order,
red-black balance, black root — the state every reachable tree is in) and every
key `k` and value `v`, `put k v` succeeds and an immediately following
`get k` returns `found = true` with exactly the value `v`, whatever the
caller's output buffer held before. -/
theorem C1_put_then_get (t : Tree) (k : Key) (v : Val) (h : Valid t) :
    ∃ t', put t k v = some t' ∧ ∀ out : Val, get t' k out = (true, v) := by
  obtain ⟨t', hput, hv'⟩ := put_valid h k v
  refine ⟨t', hput, ?_⟩
  intro out
  have hmem : (k, v) ∈ toList t' := by
    rw [put_toList h.1 hput]
    exact insUpd_mem _ _ _
  have hfind : find_node t' k = some (k, v) :=
    find_node_of_mem t' k v hv'.1 hmem
  simp [get, hfind]

theorem C1_witness :
    Valid Tree.nil ∧
      ∃ t', put Tree.nil [0] [7] = some t' ∧ ∀ out : Val, get t' [0] out = (true, [7]) :=
  ⟨valid_nil, C1_put_then_get Tree.nil [0] [7] valid_nil⟩

/-- C2: every tree reachable from the empty tree by a finite sequence of `put`
calls satisfies the red-black invariants: the root (if present) is BLACK, no
RED node has a RED child, and every path from the root to an absent-child slot
passes through the same number of BLACK nodes. -/
theorem C2_rb_invariants (ops : List (Key × Val)) (t : Tree)
    (h : runPuts .nil ops = some t) :
    rootIsBlack t ∧ noRedRed t ∧ ∃ n, ∀ m ∈ pathBlackCounts t, m = n := by
  obtain ⟨-, n, hbal⟩ := runPuts_valid_of_eq h
  exact ⟨balanced_rootBlack hbal, balanced_noRedRed hbal, n, balanced_pathCounts hbal⟩

theorem C2_witness :
    runPuts .nil exOps = some exTree ∧
      (rootIsBlack exTree ∧ noRedRed exTree ∧
        ∃ n, ∀ m ∈ pathBlackCounts exTree, m = n) :=
  ⟨by decide, C2_rb_invariants exOps exTree (by decide)⟩

/-- C3: every tree reachable from the empty tree by `put` calls is in
binary-search-tree order: the in-order key sequence is strictly increasing in
comparator order, has no duplicates, and equivalently every node dominates its
left subtree's keys and is dominated by its right subtree's keys. -/
theorem C3_bst_order (ops : List (Key × Val)) (t : Tree)
    (h : runPuts .nil ops = some t) :
    (treeKeys t).Pairwise klt ∧ (treeKeys t).Nodup ∧ localBST t := by
  have hord := (runPuts_valid_of_eq h).1
  refine ⟨hord, ?_, pairwise_localBST t hord⟩
  exact hord.imp (fun h => klt_ne h)

theorem C3_witness :
    runPuts .nil exOps = some exTree ∧
      ((treeKeys exTree).Pairwise klt ∧ (treeKeys exTree).Nodup ∧ localBST exTree) :=
  ⟨by decide, C3_bst_order exOps exTree (by decide)⟩

/-- C4: overwriting an existing key replaces only that node's value: `put` on a
key already present succeeds without any rotation, recolouring or root
blackening (the whole value-erased tree — shape, colours and keys — is
unchanged), keeps the node count, and a following `get` returns the new
value. -/
theorem C4_overwrite (t : Tree) (k : Key) (v1 v2 : Val) (hord : Ordered t)
    (hmem : (k, v1) ∈ toList t) :
    ∃ t', put t k v2 = some t' ∧ stripVals t' = stripVals t ∧ size t' = size t ∧
      ∀ out : Val, get t' k out = (true, v2) := by
  cases t with
  | nil => simp [toList] at hmem
  | node c l nk nv r =>
    have hk : k ∈ (toList (Tree.node c l nk nv r)).map Prod.fst :=
      List.mem_map.mpr ⟨(k, v1), hmem, rfl⟩
    obtain ⟨t', hpd, hstrip, hsize⟩ := putDescend_replace _ [] k v2 hord hk
    have hput : put (Tree.node c l nk nv r) k v2 = some t' := hpd
    refine ⟨t', hput, ?_, ?_, ?_⟩
    · simpa [plug] using hstrip
    · simpa [plug] using hsize
    · intro out
      have hord' : ((toList t').map Prod.fst).Pairwise klt := by
        rw [put_toList hord hput]
        exact insUpd_pairwise hord
      have hmem' : (k, v2) ∈ toList t' := by
        rw [put_toList hord hput]
        exact insUpd_mem _ _ _
      simp [get, find_node_of_mem t' k v2 hord' hmem']

theorem C4_witness :
    (treeKeys exTree).Pairwise klt ∧ ([1], [0]) ∈ toList exTree ∧
      ∃ t', put exTree [1] [9] = some t' ∧ stripVals t' = stripVals exTree ∧
        size t' = size exTree ∧ ∀ out : Val, get t' [1] out = (true, [9]) :=
  ⟨by show (treeKeys exTree).Pairwise klt; decide, by decide,
    C4_overwrite exTree [1] [0] [9] (by show (treeKeys exTree).Pairwise klt; decide)
      (by decide)⟩

/-- C5: the source comparator coincides with the reference lexicographic
comparison written from the spec (first differing byte over the shorter length
decides; a proper prefix is LESS; equal content of equal length is EQUAL), and
it is a total order: equality holds exactly on equal sequences, the LESS
relation is transitive, comparison is antisymmetric under argument swap, every
comparison is -1, 0 or 1, and the empty sequence is the minimum. -/
theorem C5_comparator :
    (∀ a b : Key, compare_keys a b = lexicographicSpec a b) ∧
    (∀ a b : Key, compare_keys a b = 0 ↔ a = b) ∧
    (∀ a b c : Key,
      compare_keys a b = -1 → compare_keys b c = -1 → compare_keys a c = -1) ∧
    (∀ a b : Key, compare_keys b a = - compare_keys a b) ∧
    (∀ a b : Key,
      compare_keys a b = -1 ∨ compare_keys a b = 0 ∨ compare_keys a b = 1) ∧
    (∀ (x : Nat) (a : Key), compare_keys [] (x :: a) = -1) :=
  ⟨compare_keys_spec, compare_keys_eq_zero, compare_keys_trans,
    (fun a b => compare_keys_swap a b), compare_keys_cases, (fun _ _ => rfl)⟩

theorem C5_witness :
    compare_keys [0] [0, 1] = -1 ∧ compare_keys [0, 1] [1] = -1 ∧
      compare_keys [0] [1] = -1 :=
  ⟨by decide, by decide,
    C5_comparator.2.2.1 [0] [0, 1] [1] (by decide) (by decide)⟩

/-- C6: `get` on a key never inserted by any prior `put` returns
`found = false` and an unchanged output buffer; in this embedding `get` is a
pure function of the tree, so the miss is reported only through the returned
flag and no tree mutation is possible. -/
theorem C6_get_missing (ops : List (Key × Val)) (t : Tree) (k : Key)
    (h : runPuts .nil ops = some t) (hk : ∀ p ∈ ops, p.1 ≠ k) :
    ∀ out : Val, get t k out = (false, out) := by
  intro out
  have hfind : find_node t k = none := by
    cases hf : find_node t k with
    | none => rfl
    | some kv =>
      obtain ⟨k', v'⟩ := kv
      obtain ⟨he, hmem⟩ := find_node_some t k k' v' hf
      rw [he] at hmem
      rcases runPuts_keys ops .nil t valid_nil h (k, v') hmem with hin | hin
      · obtain ⟨p, hp, hpk⟩ := List.mem_map.mp hin
        exact absurd hpk (hk p hp)
      · simp [toList] at hin
  simp [get, hfind]

theorem C6_witness :
    runPuts .nil exOps = some exTree ∧ get exTree [5] [3, 3] = (false, [3, 3]) :=
  ⟨by decide, C6_get_missing exOps exTree [5] (by decide) (by decide) [3, 3]⟩

/-- C8: under the precondition established by `put` on a tree satisfying the
red-black invariants — the focus is a RED node with balanced subtrees and the
ancestor chain is balanced around it — the fixup loop never dereferences a
null pointer: in the embedding, where every unguarded access (in particular
the grandparent access in the loop body) is modelled by an `Option`, the fixup
always returns `some`, and consequently so does the whole `put` on a valid
tree. -/
theorem C8_fixup_grandparent_safe :
    (∀ (z : Tree) (path : List Entry) (n n0 : Nat),
      Balanced z true n → PathBal path false n false n0 → (fixGo z path).isSome) ∧
    (∀ (t : Tree) (k : Key) (v : Val), Valid t → (put t k v).isSome) := by
  constructor
  · intro z path n n0 hz hp
    obtain ⟨t, ht, -⟩ := fixGo_balanced path.length path z n n0 (Nat.le_refl _) hz hp
    simp [ht]
  · intro t k v h
    obtain ⟨t', hput, -⟩ := put_valid h k v
    simp [hput]

theorem C8_witness :
    Balanced (Tree.node true .nil [2] [0] .nil) true 0 ∧
      (fixGo (Tree.node true .nil [2] [0] .nil)
        [Entry.mk .right true [1] [0] .nil,
         Entry.mk .right false [0] [0] .nil]).isSome :=
  ⟨Balanced.red Balanced.nil Balanced.nil,
    C8_fixup_grandparent_safe.1 _ _ 0 1 (Balanced.red Balanced.nil Balanced.nil)
      (PathBal.redR Balanced.nil (PathBal.blackR Balanced.nil PathBal.nil))⟩

/-- C9: whenever `get` reports `found = false`, the caller's output buffer is
returned exactly as it was passed in: the embedding of `get` writes the found
value over the buffer only on a hit. -/
theorem C9_get_miss_out (t : Tree) (k : Key) (out : Val)
    (h : (get t k out).1 = false) : get t k out = (false, out) := by
  unfold get at h ⊢
  cases hf : find_node t k with
  | none => rfl
  | some kv =>
    rw [hf] at h
    simp at h

theorem C9_witness :
    (get exTree [5] [7]).1 = false ∧ get exTree [5] [7] = (false, [7]) :=
  ⟨by decide, C9_get_miss_out exTree [5] [7] (by decide)⟩

/-- C10: the fixup loop terminates on every input within depth-many
iterations: the budgeted rendition of the loop (`fixGoF`), which spends one
unit of fuel per executed iteration, agrees with the loop (`fixGo`) whenever
the budget exceeds the length of the ancestor chain of the starting node —
each iteration either exits, moves the focus two levels up, or performs its
terminating rotation and exits at the next condition check, so the chain
length is a strictly decreasing termination measure. -/
theorem C10_fixup_terminates (fuel : Nat) (path : List Entry) (z : Tree)
    (h : path.length < fuel) : fixGoF fuel z path = fixGo z path :=
  fixGoF_eq_fixGo fuel path z h

theorem C10_witness :
    ([Entry.mk .right true [1] [0] .nil,
      Entry.mk .right false [0] [0] .nil] : List Entry).length < 5 ∧
      fixGoF 5 (Tree.node true .nil [2] [0] .nil)
          [Entry.mk .right true [1] [0] .nil, Entry.mk .right false [0] [0] .nil] =
        fixGo (Tree.node true .nil [2] [0] .nil)
          [Entry.mk .right true [1] [0] .nil, Entry.mk .right false [0] [0] .nil] :=
  ⟨by decide, C10_fixup_terminates 5 _ _ (by decide)⟩

end YTDB
